import Mathlib

/-!
Verification development for the Resolve game engine's two core
subsystems: the growable heap allocator (`src/unnamed/part_000`,
`heap.c`, the variant with the per-heap mutex) and the entity-component
system runtime (modelled from the specification, since `ecs.c` is not
among the provided sources; only its callers in `frogger_game.c` and
`lua_interface.c` are).

Machine addresses and sizes are modelled as `Nat`.  The wrapped
two-level segregated-fit allocator (`tlsf.c`, vendored third-party code
whose source is likewise not provided) is modelled from the spec as a
pool-based allocator that returns aligned blocks carved out of
registered pools; the placement policy (first-fit bump within the pool
chain) is an abstraction of the segregated-fit search, which none of the
verified properties depend on.
-/

namespace Resolve

/-- MAX_STACK_DEPTH from heap.c: bound on captured stack frames. -/
def MAX_STACK_DEPTH : Nat := 16

/-- Size in bytes of a pointer on the target platform (x64 Windows). -/
def sizeof_voidp : Nat := 8

/-- Size in bytes of `arena_t` (a `pool_t` pointer plus a `next` pointer). -/
def sizeof_arena_t : Nat := 16

/-- Bytes appended to every allocation to hold the captured call stack:
`MAX_STACK_DEPTH * sizeof(void*)` = 128. -/
def stackCaptureBytes : Nat := MAX_STACK_DEPTH * sizeof_voidp

/-- Modelled from the spec: bookkeeping bytes `tlsf_pool_overhead()` of the
wrapped allocator (its source is not provided).  The only fact the proofs
use is that it is at least `sizeof_arena_t`. -/
def tlsf_pool_overhead : Nat := 32

/-- Modelled from the spec: the operating-system virtual-memory interface
(`VirtualAlloc`).  `nextAddr` is the next base address the OS hands out and
`budget` the bytes it is still willing to reserve; reservation fails once
the budget is exhausted. -/
structure OS where
  nextAddr : Nat
  budget : Nat
deriving Repr, DecidableEq

/-- Modelled from the spec: `VirtualAlloc(NULL, bytes, ...)` either reserves
`bytes` fresh bytes and returns their base address, or fails with null. -/
def virtualAlloc (os : OS) (bytes : Nat) : Option (Nat × OS) :=
  if bytes ≤ os.budget then
    some (os.nextAddr, ⟨os.nextAddr + bytes, os.budget - bytes⟩)
  else
    none

/-- Modelled from the spec: one block tracked by the wrapped allocator:
its payload address, its usable size in bytes, and whether it is live
(`used`) or has been freed. -/
structure Block where
  addr : Nat
  size : Nat
  used : Bool
deriving Repr, DecidableEq

/-- Modelled from the spec: one pool registered with the wrapped allocator:
a contiguous region `[base, base + capacity)` together with the blocks
carved from it so far; `top` is the next unused address. -/
structure Pool where
  base : Nat
  capacity : Nat
  top : Nat
  blocks : List Block
deriving Repr, DecidableEq

/-- Modelled from the spec: the wrapped segregated-fit allocator instance,
holding the chain of registered pools (newest first, mirroring the heap's
arena chain). -/
structure Tlsf where
  pools : List Pool
deriving Repr, DecidableEq

/-- Round `n` up to the next multiple of `a`. -/
def alignUp (n a : Nat) : Nat := (n + a - 1) / a * a

/-- Modelled from the spec: carve an aligned block of `size` bytes out of a
single pool, if it fits. -/
def poolAlloc (p : Pool) (alignment size : Nat) : Option (Nat × Pool) :=
  let addr := alignUp p.top alignment
  if addr + size ≤ p.base + p.capacity then
    some (addr, ⟨p.base, p.capacity, addr + size, p.blocks ++ [⟨addr, size, true⟩]⟩)
  else
    none

/-- Modelled from the spec: `tlsf_memalign` over the pool chain — return an
address aligned to `alignment` with `size` usable bytes from the first pool
that can satisfy the request, or fail. -/
def tlsf_memalign_pools (pools : List Pool) (alignment size : Nat) :
    Option (Nat × List Pool) :=
  match pools with
  | [] => none
  | p :: ps =>
    match poolAlloc p alignment size with
    | some (addr, p2) => some (addr, p2 :: ps)
    | none =>
      match tlsf_memalign_pools ps alignment size with
      | some (addr, ps2) => some (addr, p :: ps2)
      | none => none

/-- Modelled from the spec: `tlsf_memalign(tlsf, alignment, size)`. -/
def tlsf_memalign (t : Tlsf) (alignment size : Nat) : Option (Nat × Tlsf) :=
  match tlsf_memalign_pools t.pools alignment size with
  | some (addr, pools2) => some (addr, ⟨pools2⟩)
  | none => none

/-- Modelled from the spec: `tlsf_add_pool(tlsf, mem, bytes)` registers a
fresh pool spanning `[base, base + capacity)`; newest pool first. -/
def tlsf_add_pool (t : Tlsf) (base capacity : Nat) : Tlsf :=
  ⟨⟨base, capacity, base, []⟩ :: t.pools⟩

/-- Mark one block free when it is the one at the freed address. -/
def freeBlock (addr : Nat) (b : Block) : Block :=
  if b.addr = addr then ⟨b.addr, b.size, false⟩ else b

/-- Apply a free to every block of a pool. -/
def freePool (addr : Nat) (p : Pool) : Pool :=
  ⟨p.base, p.capacity, p.top, p.blocks.map (freeBlock addr)⟩

/-- Modelled from the spec: `tlsf_free(tlsf, ptr)` marks the block at that
address free (freeing null or an unknown address changes nothing). -/
def tlsf_free (t : Tlsf) (addr : Nat) : Tlsf :=
  ⟨t.pools.map (freePool addr)⟩

/-- The effect of a free on one observable block triple. -/
def flipTriple (addr : Nat) (e : Nat × Nat × Bool) : Nat × Nat × Bool :=
  if e.1 = addr then (e.1, e.2.1, false) else e

/-- One arena of the heap: `arena_t` at `base`, backed by a reservation of
`size + tlsf_pool_overhead` bytes; its pool spans
`[base + sizeof_arena_t, base + sizeof_arena_t + size)`. -/
structure Arena where
  base : Nat
  size : Nat
deriving Repr, DecidableEq

/-- End of the bytes reserved from the OS for an arena
(`VirtualAlloc(arena_size + tlsf_pool_overhead())` in `heap_alloc`). -/
def arenaEnd (a : Arena) : Nat := a.base + a.size + tlsf_pool_overhead

/-- The heap of heap.c (`heap_t`): growth increment, arena chain (newest
first), the wrapped allocator, and the state of its mutex modelled as a
lock depth (0 = unlocked). -/
structure Heap where
  growIncrement : Nat
  arenas : List Arena
  tlsf : Tlsf
  lockDepth : Nat
deriving Repr, DecidableEq

/-- `heap_create(grow_increment)`: a fresh heap with no arenas and an empty
allocator instance. -/
def heap_create (growIncrement : Nat) : Heap := ⟨growIncrement, [], ⟨[]⟩, 0⟩

/-- The padding heap_alloc computes: `alignment - (size % alignment)`. -/
def heapPadding (size alignment : Nat) : Nat := alignment - size % alignment

/-- The padded size heap_alloc computes: `size + padding`. -/
def heapPaddedSize (size alignment : Nat) : Nat :=
  size + heapPadding size alignment

/-- The byte count heap_alloc actually requests from the wrapped allocator:
the padded size plus the trailing call-stack capture area. -/
def requestBytes (size alignment : Nat) : Nat :=
  heapPaddedSize size alignment + stackCaptureBytes

/-- Everything a call to `heap_alloc` produces: the returned address (null
modelled as `none`), the updated heap and OS, whether the
"OUT OF MEMORY!" diagnostic was printed, and where the call-stack capture
was written (`CaptureStackBackTrace` writes `stackCaptureBytes` bytes
starting there). -/
structure AllocResult where
  address : Option Nat
  heap : Heap
  os : OS
  oomMessage : Bool
  captureAt : Option Nat
deriving Repr, DecidableEq

/-- `heap_alloc(heap, size, alignment)` from heap.c (part_000),
parameterized by the number of diagnostic bytes appended to the request
(`stackBytes = stackCaptureBytes` in the source build, 0 in the
diagnostics-disabled build the spec compares against).  Mirrors the
source control flow exactly, including the early `return NULL` on a
failed arena reservation that skips `mutex_unlock`. -/
def heap_allocX (stackBytes : Nat) (os : OS) (h : Heap) (size alignment : Nat) :
    AllocResult :=
  let locked := h.lockDepth + 1
  let padded := heapPaddedSize size alignment
  let request := padded + stackBytes
  match tlsf_memalign h.tlsf alignment request with
  | some (addr, t) =>
    { address := some addr
      heap := ⟨h.growIncrement, h.arenas, t, locked - 1⟩
      os := os
      oomMessage := false
      captureAt := some (addr + padded) }
  | none =>
    let arenaSize := max h.growIncrement (padded * 2) + sizeof_arena_t
    match virtualAlloc os (arenaSize + tlsf_pool_overhead) with
    | none =>
      { address := none
        heap := ⟨h.growIncrement, h.arenas, h.tlsf, locked⟩
        os := os
        oomMessage := true
        captureAt := none }
    | some (base, os2) =>
      let t1 := tlsf_add_pool h.tlsf (base + sizeof_arena_t) arenaSize
      let arenas1 := Arena.mk base arenaSize :: h.arenas
      match tlsf_memalign t1 alignment request with
      | some (addr, t2) =>
        { address := some addr
          heap := ⟨h.growIncrement, arenas1, t2, locked - 1⟩
          os := os2
          oomMessage := false
          captureAt := some (addr + padded) }
      | none =>
        { address := none
          heap := ⟨h.growIncrement, arenas1, t1, locked - 1⟩
          os := os2
          oomMessage := false
          captureAt := none }

/-- `heap_alloc` as built in the source: diagnostics enabled, so every
request carries `MAX_STACK_DEPTH * sizeof(void*)` extra bytes. -/
def heap_alloc (os : OS) (h : Heap) (size alignment : Nat) : AllocResult :=
  heap_allocX stackCaptureBytes os h size alignment

/-- Modelled from the spec: the same allocator with diagnostics disabled
(no capture bytes appended), the build the spec's "must not affect the
address returned" sentence compares against. -/
def heap_alloc_nodiag (os : OS) (h : Heap) (size alignment : Nat) : AllocResult :=
  heap_allocX 0 os h size alignment

/-- `heap_free(heap, address)`: lock, `tlsf_free`, unlock (the lock/unlock
pair is balanced, so the lock depth is unchanged); freeing null is a
no-op. -/
def heap_free (h : Heap) (address : Option Nat) : Heap :=
  match address with
  | none => h
  | some a => ⟨h.growIncrement, h.arenas, tlsf_free h.tlsf a, h.lockDepth⟩

/-- `memory_leak_walker` from heap.c (part_000) applied to one pool: for
every still-used block, one report line carrying the block's size as the
walker receives it from `tlsf_walk_pool`. -/
def memory_leak_walker (p : Pool) : List Nat :=
  (p.blocks.filter fun b => b.used).map fun b => b.size

/-- The leak entries `heap_destroy` prints: every arena's pool is walked
with `memory_leak_walker`. -/
def heap_destroy_leaks (h : Heap) : List Nat :=
  (h.tlsf.pools.map memory_leak_walker).flatten

/-! ## Well-formedness predicates for the allocator state -/

/-- Basic well-formedness of a pool: its bump pointer stays inside the
region it was registered with. -/
def PoolShape (p : Pool) : Prop := p.base ≤ p.top ∧ p.top ≤ p.base + p.capacity

/-- Heap invariant: every pool of the wrapped allocator is shaped and is the
pool registered for one of the heap's arenas (`tlsf_add_pool(arena + 1,
arena_size)` in `heap_alloc`). -/
def HeapInv (h : Heap) : Prop :=
  ∀ p ∈ h.tlsf.pools, PoolShape p ∧
    ∃ a ∈ h.arenas, p.base = a.base + sizeof_arena_t ∧ p.capacity = a.size

/-- The blocks of a pool chain, pool by pool. -/
def allBlocksP (pools : List Pool) : List Block := (pools.map Pool.blocks).flatten

/-- All blocks tracked by a heap's wrapped allocator. -/
def allBlocks (h : Heap) : List Block := allBlocksP h.tlsf.pools

/-- The observable data of every block of a heap: address, size, used flag. -/
def blockTriples (h : Heap) : List (Nat × Nat × Bool) :=
  (allBlocks h).map fun b => (b.addr, b.size, b.used)

/-- Blocks laid out consecutively (with positive sizes) between a lower
bound and an upper bound, in address order. -/
def chainBlocks : Nat → List Block → Nat → Prop
  | lo, [], hi => lo ≤ hi
  | lo, b :: bs, hi => lo ≤ b.addr ∧ 0 < b.size ∧ chainBlocks (b.addr + b.size) bs hi

/-- Full well-formedness of a pool: its blocks chain from its base up to its
bump pointer, which stays inside the pool region. -/
def PoolWf (p : Pool) : Prop :=
  chainBlocks p.base p.blocks p.top ∧ p.top ≤ p.base + p.capacity

/-- The pool chain (newest pool first) occupies pairwise-disjoint address
regions, all below `bound` (the next address the OS would hand out). -/
def poolsDisjoint : List Pool → Nat → Prop
  | [], _ => True
  | p :: ps, bound => PoolWf p ∧ p.base + p.capacity ≤ bound ∧ poolsDisjoint ps p.base

/-! ## Traces of alloc and free calls against one heap -/

/-- One `heap_alloc` call a client made: its arguments, the returned
address, and whether the block is still live (not yet passed to
`heap_free`). -/
structure AllocRecord where
  size : Nat
  alignment : Nat
  ret : Option Nat
  live : Bool
deriving Repr, DecidableEq

/-- State of a client session against one heap: the OS, the heap, and the
record of every allocation made so far. -/
structure RunState where
  os : OS
  heap : Heap
  allocs : List AllocRecord
deriving Repr, DecidableEq

/-- A fresh session against a heap created with `heap_create`. -/
def initState (os : OS) (growIncrement : Nat) : RunState :=
  ⟨os, heap_create growIncrement, []⟩

/-- A client operation: allocate, or free the result of the i-th earlier
allocation. -/
inductive HeapOp where
  | alloc (size alignment : Nat)
  | free (idx : Nat)
deriving Repr, DecidableEq

/-- Run one client operation: `alloc` calls `heap_alloc` and records the
result; `free i` passes the i-th returned pointer to `heap_free` and marks
that record dead. -/
def runOp (s : RunState) (op : HeapOp) : RunState :=
  match op with
  | .alloc size alignment =>
    let r := heap_alloc s.os s.heap size alignment
    ⟨r.os, r.heap, s.allocs ++ [⟨size, alignment, r.address, r.address.isSome⟩]⟩
  | .free i =>
    match s.allocs.get? i with
    | some ar =>
      match ar.ret with
      | some a =>
        ⟨s.os, heap_free s.heap (some a),
          s.allocs.set i ⟨ar.size, ar.alignment, ar.ret, false⟩⟩
      | none => ⟨s.os, heap_free s.heap none, s.allocs⟩
    | none => ⟨s.os, heap_free s.heap none, s.allocs⟩

/-- Run a whole trace of client operations. -/
def runTrace (s : RunState) (t : List HeapOp) : RunState := t.foldl runOp s

/-- A trace is well formed when every allocation uses a positive alignment
(the source divides by it) and every `free` targets a successful earlier
allocation that is still live: no double-free and no foreign-free, the
hypotheses of the leak-accounting property. -/
def wfTrace (s : RunState) : List HeapOp → Bool
  | [] => true
  | HeapOp.alloc size alignment :: t =>
    decide (0 < alignment) && wfTrace (runOp s (.alloc size alignment)) t
  | HeapOp.free i :: t =>
    match s.allocs.get? i with
    | some ar => ar.ret.isSome && ar.live && wfTrace (runOp s (.free i)) t
    | none => false

/-- The block the allocator should be tracking for one allocation record:
its address, the size requested from the wrapped allocator, and whether it
is still live. -/
def recordEntry (ar : AllocRecord) : Option (Nat × Nat × Bool) :=
  match ar.ret with
  | some a => some (a, requestBytes ar.size ar.alignment, ar.live)
  | none => none

/-- The blocks the allocator should be tracking after a session, one per
successful allocation. -/
def expectedBlocks (s : RunState) : List (Nat × Nat × Bool) :=
  s.allocs.filterMap recordEntry

/-- The leak sizes a correct walk should report: one entry per live
successful allocation, carrying the size handed to the wrapped allocator
(padded size plus capture bytes). -/
def liveRequestSizes (s : RunState) : List Nat :=
  s.allocs.filterMap fun ar =>
    match ar.ret, ar.live with
    | some _, true => some (requestBytes ar.size ar.alignment)
    | _, _ => none

/-- What one block triple contributes to the leak report. -/
def entryLeak (e : Nat × Nat × Bool) : Option Nat :=
  match e with
  | (_, r, true) => some r
  | (_, _, false) => none

/-- Invariant carried along a client session: pools are pairwise disjoint
below the OS frontier and the allocator's blocks are, up to order, exactly
the blocks of the session's allocation records. -/
def TraceInv (s : RunState) : Prop :=
  poolsDisjoint s.heap.tlsf.pools s.os.nextAddr ∧
    List.Perm (blockTriples s.heap) (expectedBlocks s)

/-! ## The entity-component system runtime, modelled from the spec -/

/-- Modelled from the spec: one entity slot of the ECS table — its
component-membership bitmask, its generation counter, and whether it is
live (`ecs.c` is not among the provided sources; only its callers are). -/
structure EcsSlot where
  mask : Nat
  generation : Nat
  live : Bool
deriving Repr, DecidableEq

/-- Modelled from the spec: one registered component type (name, element
size, required alignment). -/
structure ComponentType where
  cname : String
  size : Nat
  alignment : Nat
deriving Repr, DecidableEq

/-- Modelled from the spec: the ECS instance — the component-type registry
and the fixed-capacity entity table. -/
structure Ecs where
  types : List ComponentType
  slots : List EcsSlot
deriving Repr, DecidableEq

/-- Width of the membership mask: at most 64 component types. -/
def ECS_COMPONENT_TYPE_MAX : Nat := 64

/-- Modelled from the spec: `ecs_create` — no component types registered,
all entity slots free at generation 0. -/
def ecs_create (maxEntities : Nat) : Ecs :=
  ⟨[], List.replicate maxEntities ⟨0, 0, false⟩⟩

/-- Modelled from the spec: `ecs_register_component_type` fails with -1
once 64 types are registered, otherwise returns the next small integer id
and appends the type to the registry. -/
def ecs_register_component_type (e : Ecs) (name : String) (size alignment : Nat) :
    Int × Ecs :=
  if ECS_COMPONENT_TYPE_MAX ≤ e.types.length then (-1, e)
  else ((e.types.length : Int), ⟨e.types ++ [⟨name, size, alignment⟩], e.slots⟩)

/-- `create_component` from lua_interface.c: registers a component type and
propagates the id, -1 included. -/
def create_component (e : Ecs) (name : String) (size alignment : Nat) : Int × Ecs :=
  ecs_register_component_type e name size alignment

/-- Register a whole list of component types, collecting the returned ids. -/
def registerAll (e : Ecs) (params : List (String × Nat × Nat)) : List Int × Ecs :=
  match params with
  | [] => ([], e)
  | q :: rest =>
    let r := ecs_register_component_type e q.1 q.2.1 q.2.2
    let rr := registerAll r.2 rest
    (r.1 :: rr.1, rr.2)

/-- Modelled from the spec: a weak entity reference — slot index plus the
generation the slot had when the reference was handed out. -/
structure EntityRef where
  slot : Nat
  generation : Nat
deriving Repr, DecidableEq

/-- Modelled from the spec: `ecs_entity_add` finds a free slot, installs
the mask, bumps the slot's generation and returns a reference carrying
that new generation; fails when the table is full. -/
def ecs_entity_add (e : Ecs) (mask : Nat) : Option (EntityRef × Ecs) :=
  match e.slots.findIdx? (fun s => !s.live) with
  | none => none
  | some i =>
    match e.slots.get? i with
    | none => none
    | some s =>
      some (⟨i, s.generation + 1⟩,
        ⟨e.types, e.slots.set i ⟨mask, s.generation + 1, true⟩⟩)

/-- Modelled from the spec: `ecs_entity_remove` — when the reference's
generation matches the live slot, clear the mask, mark the slot free and
bump the generation so outstanding references go stale; otherwise no-op. -/
def ecs_entity_remove (e : Ecs) (r : EntityRef) : Ecs :=
  match e.slots.get? r.slot with
  | some s =>
    if s.live && s.generation == r.generation then
      ⟨e.types, e.slots.set r.slot ⟨0, s.generation + 1, false⟩⟩
    else e
  | none => e

/-- A reference is valid when its slot is live at the same generation. -/
def refValid (e : Ecs) (r : EntityRef) : Bool :=
  match e.slots.get? r.slot with
  | some s => s.live && s.generation == r.generation
  | none => false

/-- Modelled from the spec: `ecs_entity_get_component` — null on a stale
reference (generation mismatch or dead slot); otherwise the component
location for this (slot, type) pair, provided the mask holds the type's
bit or `create_if_missing` is set (the zero-initialize reading of the
spec's open question).  The returned pointer is modelled as the pair
(slot index, type id) addressing the per-type backing store. -/
def ecs_entity_get_component (e : Ecs) (r : EntityRef) (compType : Nat)
    (createIfMissing : Bool) : Option (Nat × Nat) :=
  match e.slots.get? r.slot with
  | some s =>
    if s.live && s.generation == r.generation then
      if s.mask.testBit compType || createIfMissing then
        some (r.slot, compType)
      else none
    else none
  | none => none

/-- Structural ECS operations a client can run after a removal. -/
inductive EcsOp where
  | add (mask : Nat)
  | remove (r : EntityRef)
deriving Repr, DecidableEq

/-- Run one structural operation (a failed add leaves the table as is). -/
def ecsStep (e : Ecs) : EcsOp → Ecs
  | .add m =>
    match ecs_entity_add e m with
    | some v => v.2
    | none => e
  | .remove r => ecs_entity_remove e r

/-- Run a list of structural operations. -/
def ecsRun (e : Ecs) (ops : List EcsOp) : Ecs := ops.foldl ecsStep e

/-- Generation counter of slot `i` (0 for an out-of-range slot). -/
def slotGeneration (e : Ecs) (i : Nat) : Nat :=
  match e.slots.get? i with
  | some s => s.generation
  | none => 0

/-- The mask test of the query loop: `(entity_mask & required) == required`. -/
def maskSuperset (required actual : Nat) : Bool :=
  required &&& actual == required

/-- Whether slot `i` is live with a mask covering `m`. -/
def slotMatches (e : Ecs) (m i : Nat) : Bool :=
  match e.slots.get? i with
  | some s => s.live && maskSuperset m s.mask
  | none => false

/-- Modelled from the spec: the query cursor — required mask plus current
slot index. -/
structure EcsQuery where
  requiredMask : Nat
  cursor : Nat
deriving Repr, DecidableEq

/-- Scan for a matching slot, with explicit fuel (`e.slots.length - start`
steps always suffice). -/
def queryFindNextAux (e : Ecs) (m : Nat) : Nat → Nat → Nat
  | _, 0 => e.slots.length
  | start, fuel + 1 =>
    if start < e.slots.length then
      if slotMatches e m start then start else queryFindNextAux e m (start + 1) fuel
    else e.slots.length

/-- First slot at or after `start` whose live mask covers `m`, or the table
length when none remains. -/
def queryFindNext (e : Ecs) (m start : Nat) : Nat :=
  queryFindNextAux e m start (e.slots.length - start)

/-- Modelled from the spec: `ecs_query_create` — the cursor starts at the
first matching slot from 0. -/
def ecs_query_create (e : Ecs) (m : Nat) : EcsQuery := ⟨m, queryFindNext e m 0⟩

/-- Modelled from the spec: `ecs_query_is_valid` — false once the cursor
passed the last slot. -/
def ecs_query_is_valid (e : Ecs) (q : EcsQuery) : Bool :=
  decide (q.cursor < e.slots.length)

/-- Modelled from the spec: `ecs_query_next` advances to the next matching
slot after the cursor. -/
def ecs_query_next (e : Ecs) (q : EcsQuery) : EcsQuery :=
  ⟨q.requiredMask, queryFindNext e q.requiredMask (q.cursor + 1)⟩

/-- Iterate a query the way every call site does: while `ecs_query_is_valid`,
yield the cursor's slot and step with `ecs_query_next` (fuel-bounded for
termination; any fuel above the table length is enough). -/
def queryGather (e : Ecs) (q : EcsQuery) (fuel : Nat) : List Nat :=
  match fuel with
  | 0 => []
  | f + 1 =>
    if ecs_query_is_valid e q then
      q.cursor :: queryGather e (ecs_query_next e q) f
    else []

/-! ## Basic arithmetic facts about the allocator's address computations -/

theorem le_alignUp (n a : Nat) (ha : 0 < a) : n ≤ alignUp n a := by
  unfold alignUp
  have h1 := Nat.div_add_mod (n + a - 1) a
  have h2 := Nat.mod_lt (n + a - 1) ha
  rw [Nat.mul_comm] at h1
  omega

theorem alignUp_lt (n a : Nat) (ha : 0 < a) : alignUp n a < n + a := by
  unfold alignUp
  have h1 := Nat.div_add_mod (n + a - 1) a
  have h2 := Nat.mod_lt (n + a - 1) ha
  rw [Nat.mul_comm] at h1
  omega

theorem alignUp_mod (n a : Nat) : alignUp n a % a = 0 := by
  unfold alignUp
  exact Nat.mul_mod_left _ _

theorem le_heapPaddedSize (size alignment : Nat) :
    size ≤ heapPaddedSize size alignment :=
  Nat.le_add_right _ _

/-! ## Structure of successful and failed pool allocations -/

theorem poolAlloc_eq_some {p : Pool} {alignment size addr : Nat} {p2 : Pool}
    (h : poolAlloc p alignment size = some (addr, p2)) :
    addr = alignUp p.top alignment ∧ addr + size ≤ p.base + p.capacity ∧
      p2 = ⟨p.base, p.capacity, addr + size, p.blocks ++ [⟨addr, size, true⟩]⟩ := by
  simp only [poolAlloc] at h
  split at h
  · simp only [Option.some.injEq, Prod.mk.injEq] at h
    obtain ⟨h1, h2⟩ := h
    subst h1; subst h2
    exact ⟨rfl, by assumption, rfl⟩
  · exact absurd h (by simp)

theorem poolAlloc_fits {p : Pool} {alignment size : Nat}
    (h : alignUp p.top alignment + size ≤ p.base + p.capacity) :
    poolAlloc p alignment size =
      some (alignUp p.top alignment,
        ⟨p.base, p.capacity, alignUp p.top alignment + size,
          p.blocks ++ [⟨alignUp p.top alignment, size, true⟩]⟩) := by
  simp only [poolAlloc, if_pos h]

/-- Structural characterization of a successful `tlsf_memalign_pools`: one
pool of the chain had the block carved out of it, all other pools are
untouched. -/
theorem tlsf_memalign_pools_split {pools : List Pool} {alignment size addr : Nat}
    {pools2 : List Pool}
    (h : tlsf_memalign_pools pools alignment size = some (addr, pools2)) :
    ∃ ps1 p ps2, pools = ps1 ++ p :: ps2 ∧
      pools2 = ps1 ++
        Pool.mk p.base p.capacity (addr + size) (p.blocks ++ [⟨addr, size, true⟩]) :: ps2 ∧
      addr = alignUp p.top alignment ∧ addr + size ≤ p.base + p.capacity := by
  induction pools generalizing pools2 with
  | nil => exact absurd h (by simp [tlsf_memalign_pools])
  | cons p ps ih =>
    rw [tlsf_memalign_pools] at h
    cases hp : poolAlloc p alignment size with
    | some v =>
      obtain ⟨a, p2⟩ := v
      rw [hp] at h
      simp only [Option.some.injEq, Prod.mk.injEq] at h
      obtain ⟨h1, h2⟩ := h
      subst h1
      obtain ⟨e1, e2, e3⟩ := poolAlloc_eq_some hp
      exact ⟨[], p, ps, rfl, by simp [← h2, e3, e1], e1, e2⟩
    | none =>
      rw [hp] at h
      cases hr : tlsf_memalign_pools ps alignment size with
      | some v =>
        obtain ⟨a, ps2'⟩ := v
        rw [hr] at h
        simp only [Option.some.injEq, Prod.mk.injEq] at h
        obtain ⟨h1, h2⟩ := h
        subst h1
        obtain ⟨ps1, q, qs2, e1, e2, e3, e4⟩ := ih hr
        exact ⟨p :: ps1, q, qs2, by simp [e1], by simp [← h2, e2], e3, e4⟩
      | none => rw [hr] at h; exact absurd h (by simp)

theorem tlsf_memalign_pools_isSome {pools : List Pool} {alignment size : Nat}
    (hex : ∃ p ∈ pools, alignUp p.top alignment + size ≤ p.base + p.capacity) :
    (tlsf_memalign_pools pools alignment size).isSome = true := by
  induction pools with
  | nil => simp at hex
  | cons p ps ih =>
    rw [tlsf_memalign_pools]
    cases hp : poolAlloc p alignment size with
    | some v => simp
    | none =>
      obtain ⟨q, hq, hfit⟩ := hex
      rcases List.mem_cons.mp hq with hq | hq
      · subst hq
        rw [poolAlloc_fits hfit] at hp
        exact absurd hp (by simp)
      · have := ih ⟨q, hq, hfit⟩
        cases hr : tlsf_memalign_pools ps alignment size with
        | some v => obtain ⟨a, ps2⟩ := v; simp
        | none => rw [hr] at this; simp at this

/-- A successful request is aligned and sits inside one of the pools it was
asked to search (all of whose bases precede their bump pointers). -/
theorem memalign_result_in_pool {pools : List Pool} {alignment size addr : Nat}
    {pools2 : List Pool}
    (h : tlsf_memalign_pools pools alignment size = some (addr, pools2))
    (ha : 0 < alignment)
    (hshape : ∀ p ∈ pools, p.base ≤ p.top) :
    addr % alignment = 0 ∧
      ∃ p ∈ pools, p.base ≤ addr ∧ addr + size ≤ p.base + p.capacity := by
  obtain ⟨ps1, p, ps2, e1, _, e3, e4⟩ := tlsf_memalign_pools_split h
  have hmem : p ∈ pools := by rw [e1]; exact List.mem_append_right _ (List.mem_cons_self _ _)
  have hbt : p.base ≤ p.top := hshape p hmem
  have : p.top ≤ addr := e3 ▸ le_alignUp p.top alignment ha
  exact ⟨e3 ▸ alignUp_mod p.top alignment, p, hmem, Nat.le_trans hbt this, e4⟩

/-! ## The heap invariant tying the pool chain to the arena chain -/

theorem pools_within_arenas {pools : List Pool} {arenas : List Arena}
    (hcorr : ∀ q ∈ pools,
      ∃ a ∈ arenas, q.base = a.base + sizeof_arena_t ∧ q.capacity = a.size)
    {q : Pool} (hq : q ∈ pools) {addr size : Nat}
    (h1 : q.base ≤ addr) (h2 : addr + size ≤ q.base + q.capacity) :
    ∃ a ∈ arenas, a.base ≤ addr ∧ addr + size ≤ arenaEnd a := by
  obtain ⟨a, haa, e1, e2⟩ := hcorr q hq
  have c1 : sizeof_arena_t = 16 := rfl
  have c2 : tlsf_pool_overhead = 32 := rfl
  have c3 : arenaEnd a = a.base + a.size + tlsf_pool_overhead := rfl
  exact ⟨a, haa, by omega, by omega⟩

theorem memalign_new_block {pools : List Pool} {alignment size addr : Nat}
    {pools2 : List Pool}
    (h : tlsf_memalign_pools pools alignment size = some (addr, pools2)) :
    ∃ pl ∈ pools2, (⟨addr, size, true⟩ : Block) ∈ pl.blocks := by
  obtain ⟨ps1, p, ps2, e1, e2, e3, e4⟩ := tlsf_memalign_pools_split h
  subst e2
  exact ⟨_, List.mem_append_right _ (List.mem_cons_self _ _),
    List.mem_append_right _ (List.mem_cons_self _ _)⟩

theorem memalign_addr_mod {pools : List Pool} {alignment size addr : Nat}
    {pools2 : List Pool}
    (h : tlsf_memalign_pools pools alignment size = some (addr, pools2)) :
    addr % alignment = 0 := by
  obtain ⟨ps1, p, ps2, e1, e2, e3, e4⟩ := tlsf_memalign_pools_split h
  exact e3 ▸ alignUp_mod p.top alignment

/-! ## Claim C1: alignment and arena containment of successful allocations -/

/-- Claim C1: for every call `heap_alloc(heap, size, alignment)` on a heap
whose pools correspond to its arenas, with a power-of-two alignment, the
result is either null or an address `p` with `p % alignment = 0` such that
the byte range `[p, p + size)` lies entirely within a single arena owned by
that heap. -/
theorem heap_alloc_aligned_within_arena
    (os : OS) (h : Heap) (size alignment : Nat)
    (hinv : HeapInv h) (hpow : ∃ k, alignment = 2 ^ k) :
    ∀ p, (heap_alloc os h size alignment).address = some p →
      p % alignment = 0 ∧
      ∃ a ∈ (heap_alloc os h size alignment).heap.arenas,
        a.base ≤ p ∧ p + size ≤ arenaEnd a := by
  obtain ⟨k, hk⟩ := hpow
  have ha : 0 < alignment := hk ▸ pow_pos (by norm_num) k
  have hsz : size ≤ heapPaddedSize size alignment + stackCaptureBytes :=
    Nat.le_trans (le_heapPaddedSize size alignment) (Nat.le_add_right _ _)
  intro p hp
  simp only [heap_alloc, heap_allocX, tlsf_memalign] at hp ⊢
  cases hm : tlsf_memalign_pools h.tlsf.pools alignment
      (heapPaddedSize size alignment + stackCaptureBytes) with
  | some v =>
    obtain ⟨addr, pools2⟩ := v
    rw [hm] at hp
    dsimp only at hp ⊢
    simp only [Option.some.injEq] at hp
    subst hp
    obtain ⟨hmod, q, hq, hq1, hq2⟩ := memalign_result_in_pool hm ha
      (fun q hq => ((hinv q hq).1).1)
    exact ⟨hmod, pools_within_arenas (fun q hq => (hinv q hq).2) hq hq1 (by omega)⟩
  | none =>
    rw [hm] at hp
    dsimp only at hp ⊢
    cases hv : virtualAlloc os
        (max h.growIncrement (heapPaddedSize size alignment * 2) + sizeof_arena_t +
          tlsf_pool_overhead) with
    | none =>
      rw [hv] at hp
      dsimp only at hp
      exact absurd hp (by simp)
    | some w =>
      obtain ⟨base, os2⟩ := w
      rw [hv] at hp
      dsimp only [tlsf_add_pool] at hp ⊢
      cases hm2 : tlsf_memalign_pools
          (Pool.mk (base + sizeof_arena_t)
            (max h.growIncrement (heapPaddedSize size alignment * 2) + sizeof_arena_t)
            (base + sizeof_arena_t) [] :: h.tlsf.pools) alignment
          (heapPaddedSize size alignment + stackCaptureBytes) with
      | some v =>
        obtain ⟨addr, pools2⟩ := v
        rw [hm2] at hp
        dsimp only at hp ⊢
        simp only [Option.some.injEq] at hp
        subst hp
        have hshape : ∀ q ∈ (Pool.mk (base + sizeof_arena_t)
            (max h.growIncrement (heapPaddedSize size alignment * 2) + sizeof_arena_t)
            (base + sizeof_arena_t) [] :: h.tlsf.pools), q.base ≤ q.top := by
          intro q hq
          rcases List.mem_cons.mp hq with hq | hq
          · subst hq; exact Nat.le_refl _
          · exact ((hinv q hq).1).1
        obtain ⟨hmod, q, hq, hq1, hq2⟩ := memalign_result_in_pool hm2 ha hshape
        refine ⟨hmod, ?_⟩
        have hcorr : ∀ q ∈ (Pool.mk (base + sizeof_arena_t)
            (max h.growIncrement (heapPaddedSize size alignment * 2) + sizeof_arena_t)
            (base + sizeof_arena_t) [] :: h.tlsf.pools),
            ∃ a ∈ (Arena.mk base
                (max h.growIncrement (heapPaddedSize size alignment * 2) + sizeof_arena_t)
              :: h.arenas),
              q.base = a.base + sizeof_arena_t ∧ q.capacity = a.size := by
          intro q hq
          rcases List.mem_cons.mp hq with hq | hq
          · subst hq
            exact ⟨_, List.mem_cons_self _ _, rfl, rfl⟩
          · obtain ⟨a, haa, e1, e2⟩ := (hinv q hq).2
            exact ⟨a, List.mem_cons_of_mem _ haa, e1, e2⟩
        exact pools_within_arenas hcorr hq hq1 (by omega)
      | none =>
        rw [hm2] at hp
        dsimp only at hp
        exact absurd hp (by simp)

/-- Witness for claim C1: a concrete allocation of 5 bytes at alignment 8
from a fresh heap returns address 16, a multiple of 8, inside the single
arena the call created. -/
theorem heap_alloc_aligned_witness :
    (HeapInv (heap_create 4096) ∧ (8 : Nat) = 2 ^ 3) ∧
      ((16 : Nat) % 8 = 0 ∧
        ∃ a ∈ (heap_alloc ⟨0, 1000000⟩ (heap_create 4096) 5 8).heap.arenas,
          a.base ≤ 16 ∧ 16 + 5 ≤ arenaEnd a) :=
  ⟨⟨fun p hp => absurd hp (List.not_mem_nil p), rfl⟩,
    heap_alloc_aligned_within_arena ⟨0, 1000000⟩ (heap_create 4096) 5 8
      (fun p hp => absurd hp (List.not_mem_nil p)) ⟨3, rfl⟩ 16 rfl⟩

/-! ## Claim C10: the padding computation of heap_alloc -/

/-- Claim C10: for every `heap_alloc(heap, size, alignment)` with
`alignment > 0`, the internal padding `alignment - (size % alignment)`
always lies in `[1, alignment]`; even when `size` is already a multiple of
`alignment` the block is padded by a further full `alignment` bytes, so the
padded size strictly exceeds the requested size on every call. -/
theorem heap_padding_bounds (size alignment : Nat) (ha : 0 < alignment) :
    1 ≤ heapPadding size alignment ∧ heapPadding size alignment ≤ alignment ∧
      size < heapPaddedSize size alignment := by
  have h2 := Nat.mod_lt size ha
  simp only [heapPaddedSize, heapPadding]
  omega

/-- Witness for claim C10 at size 16, alignment 8 (16 is a multiple of 8
and is still padded by a further 8 bytes). -/
theorem heap_padding_bounds_witness :
    0 < 8 ∧ (1 ≤ heapPadding 16 8 ∧ heapPadding 16 8 ≤ 8 ∧ 16 < heapPaddedSize 16 8) :=
  ⟨by decide, heap_padding_bounds 16 8 (by decide)⟩

/-! ## Claim C9: the mutex is leaked on the failed-reservation path -/

/-- Claim C9 is violated by the code: when the first `tlsf_memalign` fails
and the arena reservation also fails, `heap_alloc` returns null without
calling `mutex_unlock` (the early `return NULL` at the `!arena` branch), so
the heap's lock is still held after the call — here evaluated on a heap
whose OS budget is exhausted: the lock depth went from 0 to 1. -/
theorem heap_alloc_leaks_lock_on_failed_reservation :
    (heap_alloc ⟨0, 0⟩ (heap_create 0) 1 1).address = none ∧
      (heap_create 0).lockDepth = 0 ∧
      (heap_alloc ⟨0, 0⟩ (heap_create 0) 1 1).heap.lockDepth = 1 :=
  ⟨rfl, rfl, rfl⟩

/-! ## Claim C4: arena growth and the retried allocation -/

/-- Counterexample to claim C4: with growth increment 0, allocating 1 byte
at alignment 1 grows a new arena (the OS reservation succeeds and the arena
is registered), yet the retry still fails — the arena is sized from
`padded_size * 2` while the retried request is `padded_size + 128`
diagnostic bytes, so the retry can fail for lack of arena space. -/
theorem grow_arena_too_small_cex :
    (heap_alloc ⟨0, 1000000⟩ (heap_create 0) 1 1).address = none ∧
      (heap_alloc ⟨0, 1000000⟩ (heap_create 0) 1 1).heap.arenas.length = 1 ∧
      virtualAlloc ⟨0, 1000000⟩ (max (heap_create 0).growIncrement
          (heapPaddedSize 1 1 * 2) + sizeof_arena_t + tlsf_pool_overhead) ≠ none :=
  ⟨rfl, rfl, by decide⟩

/-- Claim C4 as amended: the new arena is sized
`max(growth_increment, padded_size * 2) + sizeof(arena_t)` and the retry is
guaranteed to succeed only when that arena size covers the retried request
(padded size plus the 128 diagnostic bytes) together with worst-case
alignment slack; under that proviso, and a successful reservation,
`heap_alloc` returns non-null. -/
theorem grow_retry_succeeds_when_arena_covers_request
    (os : OS) (h : Heap) (size alignment : Nat) (ha : 0 < alignment)
    (hfit : requestBytes size alignment + alignment ≤
        max h.growIncrement (heapPaddedSize size alignment * 2) + sizeof_arena_t + 1)
    (hbudget : max h.growIncrement (heapPaddedSize size alignment * 2) + sizeof_arena_t +
        tlsf_pool_overhead ≤ os.budget) :
    (heap_alloc os h size alignment).address.isSome = true := by
  simp only [heap_alloc, heap_allocX, tlsf_memalign]
  cases hm : tlsf_memalign_pools h.tlsf.pools alignment
      (heapPaddedSize size alignment + stackCaptureBytes) with
  | some v => obtain ⟨addr, pools2⟩ := v; simp
  | none =>
    dsimp only
    rw [virtualAlloc, if_pos hbudget]
    dsimp only [tlsf_add_pool]
    have hfit2 : alignUp (os.nextAddr + sizeof_arena_t) alignment +
        (heapPaddedSize size alignment + stackCaptureBytes) ≤
        (os.nextAddr + sizeof_arena_t) +
        (max h.growIncrement (heapPaddedSize size alignment * 2) + sizeof_arena_t) := by
      have h1 := alignUp_lt (os.nextAddr + sizeof_arena_t) alignment ha
      have h3 : requestBytes size alignment =
          heapPaddedSize size alignment + stackCaptureBytes := rfl
      omega
    have hsome := @tlsf_memalign_pools_isSome
      (Pool.mk (os.nextAddr + sizeof_arena_t)
          (max h.growIncrement (heapPaddedSize size alignment * 2) + sizeof_arena_t)
          (os.nextAddr + sizeof_arena_t) [] :: h.tlsf.pools)
      alignment
      (heapPaddedSize size alignment + stackCaptureBytes)
      ⟨_, List.mem_cons_self _ _, hfit2⟩
    cases hm2 : tlsf_memalign_pools
        (Pool.mk (os.nextAddr + sizeof_arena_t)
          (max h.growIncrement (heapPaddedSize size alignment * 2) + sizeof_arena_t)
          (os.nextAddr + sizeof_arena_t) [] :: h.tlsf.pools) alignment
        (heapPaddedSize size alignment + stackCaptureBytes) with
    | some v => obtain ⟨addr, pools2⟩ := v; simp
    | none => rw [hm2] at hsome; simp at hsome

/-- Witness for the amended claim C4: a 200-byte, 8-aligned request with
growth increment 0 grows an arena of 432 bytes, which covers the retried
336-byte request, and indeed succeeds. -/
theorem grow_retry_succeeds_witness :
    (0 < 8 ∧
      requestBytes 200 8 + 8 ≤
        max (heap_create 0).growIncrement (heapPaddedSize 200 8 * 2) + sizeof_arena_t + 1 ∧
      max (heap_create 0).growIncrement (heapPaddedSize 200 8 * 2) + sizeof_arena_t +
        tlsf_pool_overhead ≤ (OS.mk 0 1000).budget) ∧
    (heap_alloc ⟨0, 1000⟩ (heap_create 0) 200 8).address.isSome = true :=
  ⟨⟨by decide, by decide, by decide⟩,
    grow_retry_succeeds_when_arena_covers_request ⟨0, 1000⟩ (heap_create 0) 200 8
      (by decide) (by decide) (by decide)⟩

/-! ## Claim C7: out-of-memory reporting and non-null results -/

/-- Claim C7: if `heap_alloc` fails to satisfy a request from existing
arenas and the reservation of a new arena also fails, it emits the
out-of-memory diagnostic and returns null; and it never returns a non-null
address that does not carry a live block of at least the requested size. -/
theorem heap_alloc_oom_reports_null_or_usable
    (os : OS) (h : Heap) (size alignment : Nat) (ha : 0 < alignment) :
    ((tlsf_memalign h.tlsf alignment (requestBytes size alignment) = none ∧
        virtualAlloc os (max h.growIncrement (heapPaddedSize size alignment * 2) +
          sizeof_arena_t + tlsf_pool_overhead) = none) →
      (heap_alloc os h size alignment).address = none ∧
        (heap_alloc os h size alignment).oomMessage = true) ∧
    ∀ p, (heap_alloc os h size alignment).address = some p →
      ∃ pl ∈ (heap_alloc os h size alignment).heap.tlsf.pools, ∃ b ∈ pl.blocks,
        b.addr = p ∧ b.used = true ∧ size ≤ b.size := by
  have hsz : size ≤ heapPaddedSize size alignment + stackCaptureBytes :=
    Nat.le_trans (le_heapPaddedSize size alignment) (Nat.le_add_right _ _)
  simp only [heap_alloc, heap_allocX, tlsf_memalign]
  cases hm : tlsf_memalign_pools h.tlsf.pools alignment
      (heapPaddedSize size alignment + stackCaptureBytes) with
  | some v =>
    obtain ⟨addr, pools2⟩ := v
    dsimp only
    constructor
    · rintro ⟨h1, h2⟩
      simp only [requestBytes, hm] at h1
      exact absurd h1 (by simp)
    · intro p hp
      simp only [Option.some.injEq] at hp
      subst hp
      obtain ⟨pl, hpl, hb⟩ := memalign_new_block hm
      exact ⟨pl, hpl, ⟨addr, _, true⟩, hb, rfl, rfl, hsz⟩
  | none =>
    dsimp only
    cases hv : virtualAlloc os
        (max h.growIncrement (heapPaddedSize size alignment * 2) + sizeof_arena_t +
          tlsf_pool_overhead) with
    | none =>
      dsimp only
      exact ⟨fun _ => ⟨rfl, rfl⟩, fun p hp => absurd hp (by simp)⟩
    | some w =>
      obtain ⟨base, os2⟩ := w
      dsimp only [tlsf_add_pool]
      cases hm2 : tlsf_memalign_pools
          (Pool.mk (base + sizeof_arena_t)
            (max h.growIncrement (heapPaddedSize size alignment * 2) + sizeof_arena_t)
            (base + sizeof_arena_t) [] :: h.tlsf.pools) alignment
          (heapPaddedSize size alignment + stackCaptureBytes) with
      | some v =>
        obtain ⟨addr, pools2⟩ := v
        dsimp only
        constructor
        · rintro ⟨h1, h2⟩
          exact absurd h2 (by simp)
        · intro p hp
          simp only [Option.some.injEq] at hp
          subst hp
          obtain ⟨pl, hpl, hb⟩ := memalign_new_block hm2
          exact ⟨pl, hpl, ⟨addr, _, true⟩, hb, rfl, rfl, hsz⟩
      | none =>
        dsimp only
        constructor
        · rintro ⟨h1, h2⟩
          exact absurd h2 (by simp)
        · intro p hp
          exact absurd hp (by simp)

/-- Witness for claim C7: on exhausted OS budget, allocating from a fresh
heap hits the double-failure path, prints the diagnostic and returns
null. -/
theorem heap_alloc_oom_witness :
    0 < 1 ∧
      ((heap_alloc ⟨0, 0⟩ (heap_create 0) 1 1).address = none ∧
        (heap_alloc ⟨0, 0⟩ (heap_create 0) 1 1).oomMessage = true) :=
  ⟨by decide,
    (heap_alloc_oom_reports_null_or_usable ⟨0, 0⟩ (heap_create 0) 1 1 (by decide)).1
      ⟨rfl, rfl⟩⟩

/-! ## Claim C8: call-stack capture relative to the payload -/

/-- Claim C8 as amended: for every successful `heap_alloc` the captured
call stack is written at `p + padded_size`, strictly beyond the payload
`[p, p + size)` (the capture overwrites no payload byte), and the returned
address satisfies the requested alignment; the cross-build address identity
fails separately (see the counterexample). -/
theorem capture_outside_payload
    (os : OS) (h : Heap) (size alignment : Nat) (ha : 0 < alignment) :
    ∀ p, (heap_alloc os h size alignment).address = some p →
      (heap_alloc os h size alignment).captureAt =
          some (p + heapPaddedSize size alignment) ∧
        p % alignment = 0 ∧
        ∀ x, p ≤ x → x < p + size →
          ¬ (p + heapPaddedSize size alignment ≤ x ∧
            x < p + heapPaddedSize size alignment + stackCaptureBytes) := by
  have hlt : size < heapPaddedSize size alignment := by
    have h2 := Nat.mod_lt size ha
    simp only [heapPaddedSize, heapPadding]
    omega
  intro p hp
  simp only [heap_alloc, heap_allocX, tlsf_memalign] at hp ⊢
  cases hm : tlsf_memalign_pools h.tlsf.pools alignment
      (heapPaddedSize size alignment + stackCaptureBytes) with
  | some v =>
    obtain ⟨addr, pools2⟩ := v
    rw [hm] at hp
    dsimp only at hp ⊢
    simp only [Option.some.injEq] at hp
    subst hp
    exact ⟨rfl, memalign_addr_mod hm, fun x hx1 hx2 hx3 => by omega⟩
  | none =>
    rw [hm] at hp
    dsimp only at hp ⊢
    cases hv : virtualAlloc os
        (max h.growIncrement (heapPaddedSize size alignment * 2) + sizeof_arena_t +
          tlsf_pool_overhead) with
    | none =>
      rw [hv] at hp
      dsimp only at hp
      exact absurd hp (by simp)
    | some w =>
      obtain ⟨base, os2⟩ := w
      rw [hv] at hp
      dsimp only [tlsf_add_pool] at hp ⊢
      cases hm2 : tlsf_memalign_pools
          (Pool.mk (base + sizeof_arena_t)
            (max h.growIncrement (heapPaddedSize size alignment * 2) + sizeof_arena_t)
            (base + sizeof_arena_t) [] :: h.tlsf.pools) alignment
          (heapPaddedSize size alignment + stackCaptureBytes) with
      | some v =>
        obtain ⟨addr, pools2⟩ := v
        rw [hm2] at hp
        dsimp only at hp ⊢
        simp only [Option.some.injEq] at hp
        subst hp
        exact ⟨rfl, memalign_addr_mod hm2, fun x hx1 hx2 hx3 => by omega⟩
      | none =>
        rw [hm2] at hp
        dsimp only at hp
        exact absurd hp (by simp)

/-- Witness for the amended claim C8: the 5-byte, 8-aligned allocation at
address 16 stores its capture at 24, beyond the payload `[16, 21)`. -/
theorem capture_outside_payload_witness :
    0 < 8 ∧
      ((heap_alloc ⟨0, 1000000⟩ (heap_create 4096) 5 8).captureAt =
          some (16 + heapPaddedSize 5 8) ∧
        (16 : Nat) % 8 = 0 ∧
        ∀ x, 16 ≤ x → x < 16 + 5 →
          ¬ (16 + heapPaddedSize 5 8 ≤ x ∧
            x < 16 + heapPaddedSize 5 8 + stackCaptureBytes)) :=
  ⟨by decide,
    capture_outside_payload ⟨0, 1000000⟩ (heap_create 4096) 5 8 (by decide) 16 rfl⟩

/-- Counterexample to claim C8's cross-build clause: on the same reached
heap state, the same call (200 bytes, alignment 1) succeeds at address 866
in the diagnostics build but at address 545 in the diagnostics-disabled
build — the 128 inline capture bytes enlarge the request and reroute the
allocation, so storing the capture does change the address returned
relative to a diagnostics-disabled build. -/
theorem inline_capture_changes_address_cex :
    (heap_alloc (heap_alloc ⟨0, 100000⟩ (heap_create 0) 400 1).os
        (heap_alloc ⟨0, 100000⟩ (heap_create 0) 400 1).heap 200 1).address = some 866 ∧
      (heap_alloc_nodiag (heap_alloc ⟨0, 100000⟩ (heap_create 0) 400 1).os
        (heap_alloc ⟨0, 100000⟩ (heap_create 0) 400 1).heap 200 1).address = some 545 ∧
      (866 : Nat) ≠ 545 :=
  ⟨rfl, rfl, by decide⟩

/-! ## Claim C6: component-type registration ids -/

theorem registerAll_results (e : Ecs) (params : List (String × Nat × Nat)) :
    (registerAll e params).1 = (List.range params.length).map
      (fun i => if e.types.length + i < ECS_COMPONENT_TYPE_MAX
        then ((e.types.length + i : Nat) : Int) else -1) := by
  induction params generalizing e with
  | nil => simp [registerAll]
  | cons q rest ih =>
    rw [registerAll]
    dsimp only
    simp only [List.length_cons]
    rw [List.range_succ_eq_map, List.map_cons, List.map_map]
    by_cases hlen : ECS_COMPONENT_TYPE_MAX ≤ e.types.length
    · rw [ecs_register_component_type, if_pos hlen]
      dsimp only
      rw [ih e]
      congr 1
      · rw [if_neg (by omega)]
      · apply List.map_congr_left
        intro i hi
        simp only [Function.comp]
        rw [if_neg (by omega), if_neg (by omega)]
    · push_neg at hlen
      rw [ecs_register_component_type, if_neg (by omega)]
      dsimp only
      rw [ih]
      congr 1
      · rw [if_pos (by omega)]
        simp
      · apply List.map_congr_left
        intro i hi
        simp only [Function.comp, List.length_append, List.length_cons,
          List.length_nil]
        have h1 : e.types.length + 1 + i = e.types.length + (i + 1) := by omega
        rw [h1]

/-- Claim C6: starting from a freshly created ECS, the i-th registration
(0-based) returns id `i` for the first 64 registrations — distinct ids in
`[0, 64)` — and every later registration fails with -1. -/
theorem register_component_type_first64 (maxEntities : Nat)
    (params : List (String × Nat × Nat)) :
    (registerAll (ecs_create maxEntities) params).1 =
      (List.range params.length).map
        (fun (i : Nat) => if i < 64 then (i : Int) else -1) := by
  have h := registerAll_results (ecs_create maxEntities) params
  rw [h]
  apply List.map_congr_left
  intro i hi
  have h0 : (ecs_create maxEntities).types.length = 0 := rfl
  have h64 : ECS_COMPONENT_TYPE_MAX = 64 := rfl
  rw [h0, h64, Nat.zero_add]

/-! ## Claim C3: stale entity references after removal -/

theorem ecsStep_slots_length (e : Ecs) (op : EcsOp) :
    (ecsStep e op).slots.length = e.slots.length := by
  cases op with
  | add m =>
    rw [ecsStep, ecs_entity_add]
    cases hf : e.slots.findIdx? (fun s => !s.live) with
    | none => rfl
    | some i =>
      dsimp only
      cases hg : e.slots.get? i with
      | none => rfl
      | some s => simp
  | remove r =>
    rw [ecsStep, ecs_entity_remove]
    cases hg : e.slots.get? r.slot with
    | none => rfl
    | some s =>
      dsimp only
      by_cases hc : (s.live && s.generation == r.generation) = true
      · rw [if_pos hc]; simp
      · rw [if_neg hc]

theorem slotGeneration_set_le (tys : List ComponentType) (l : List EcsSlot)
    (j : Nat) (x : EcsSlot) (i : Nat)
    (hj : ∀ s, l.get? j = some s → s.generation ≤ x.generation) :
    slotGeneration ⟨tys, l⟩ i ≤ slotGeneration ⟨tys, l.set j x⟩ i := by
  rw [slotGeneration, slotGeneration]
  dsimp only
  rw [List.get?_set]
  by_cases hij : j = i
  · rw [if_pos hij]
    subst hij
    cases hg : l.get? j with
    | none => simp
    | some s => simpa using hj s hg
  · rw [if_neg hij]

theorem slotGeneration_step_le (e : Ecs) (op : EcsOp) (i : Nat) :
    slotGeneration e i ≤ slotGeneration (ecsStep e op) i := by
  cases op with
  | add m =>
    rw [ecsStep, ecs_entity_add]
    cases hf : e.slots.findIdx? (fun s => !s.live) with
    | none => exact Nat.le_refl _
    | some j =>
      dsimp only
      cases hg : e.slots.get? j with
      | none => exact Nat.le_refl _
      | some s =>
        dsimp only
        have := slotGeneration_set_le e.types e.slots j
          ⟨m, s.generation + 1, true⟩ i
          (fun s2 hs2 => by
            rw [hg] at hs2
            cases hs2
            exact Nat.le_succ _)
        exact this
  | remove r =>
    rw [ecsStep, ecs_entity_remove]
    cases hg : e.slots.get? r.slot with
    | none => exact Nat.le_refl _
    | some s =>
      dsimp only
      by_cases hc : (s.live && s.generation == r.generation) = true
      · rw [if_pos hc]
        exact slotGeneration_set_le e.types e.slots r.slot
          ⟨0, s.generation + 1, false⟩ i
          (fun s2 hs2 => by
            rw [hg] at hs2
            cases hs2
            exact Nat.le_succ _)
      · rw [if_neg hc]

theorem slotGeneration_run_le (e : Ecs) (ops : List EcsOp) (i : Nat) :
    slotGeneration e i ≤ slotGeneration (ecsRun e ops) i := by
  induction ops generalizing e with
  | nil => exact Nat.le_refl _
  | cons op rest ih =>
    rw [ecsRun, List.foldl_cons]
    exact Nat.le_trans (slotGeneration_step_le e op i) (ih (ecsStep e op))

theorem ecsRun_slots_length (e : Ecs) (ops : List EcsOp) :
    (ecsRun e ops).slots.length = e.slots.length := by
  induction ops generalizing e with
  | nil => rfl
  | cons op rest ih =>
    rw [ecsRun, List.foldl_cons]
    rw [show (List.foldl ecsStep (ecsStep e op) rest) = ecsRun (ecsStep e op) rest from rfl]
    rw [ih (ecsStep e op), ecsStep_slots_length]

/-- Claim C3: after `ecs_entity_remove(ecs, ref)` on a valid reference,
every later `ecs_entity_get_component` through the old reference returns
null — under any further sequence of adds and removes, including ones that
reuse the slot — because the slot's generation was bumped past the
reference's and generations only grow. -/
theorem stale_ref_get_component_none
    (e : Ecs) (r : EntityRef) (hv : refValid e r = true) :
    ∀ ops compType createIfMissing,
      ecs_entity_get_component (ecsRun (ecs_entity_remove e r) ops) r
        compType createIfMissing = none := by
  intro ops compType createIfMissing
  rw [refValid] at hv
  cases hg : e.slots.get? r.slot with
  | none => rw [hg] at hv; exact absurd hv (by simp)
  | some s =>
    rw [hg] at hv
    dsimp only at hv
    have hlt : r.slot < e.slots.length := by
      by_contra hge
      push_neg at hge
      rw [List.get?_eq_none.mpr hge] at hg
      exact absurd hg (by simp)
    have hgen : s.generation = r.generation := by
      have h2 := ((Bool.and_eq_true _ _).mp hv).2
      simpa using h2
    have hrem : slotGeneration (ecs_entity_remove e r) r.slot = s.generation + 1 := by
      rw [ecs_entity_remove, hg]
      dsimp only
      rw [if_pos hv]
      rw [slotGeneration]
      dsimp only
      rw [List.get?_set, if_pos rfl, hg]
      simp
    have hmono := slotGeneration_run_le (ecs_entity_remove e r) ops r.slot
    rw [hrem] at hmono
    rw [ecs_entity_get_component]
    cases hg2 : (ecsRun (ecs_entity_remove e r) ops).slots.get? r.slot with
    | none => rfl
    | some s2 =>
      dsimp only
      have hs2gen : slotGeneration (ecsRun (ecs_entity_remove e r) ops) r.slot =
          s2.generation := by
        rw [slotGeneration, hg2]
      rw [hs2gen] at hmono
      have hneq : s2.generation ≠ r.generation := by omega
      have hcond : (s2.live && s2.generation == r.generation) = false := by
        simp [hneq]
      rw [hcond]
      simp

/-- Witness for claim C3: the entity added at slot 0 of a fresh 4-slot
table is removed; a later add reuses slot 0, and the old reference still
reads null. -/
theorem stale_ref_witness :
    refValid (ecsStep (ecs_create 4) (EcsOp.add 3)) ⟨0, 1⟩ = true ∧
      ecs_entity_get_component
        (ecsRun (ecs_entity_remove (ecsStep (ecs_create 4) (EcsOp.add 3)) ⟨0, 1⟩)
          [EcsOp.add 5]) ⟨0, 1⟩ 0 true = none :=
  ⟨by decide, stale_ref_get_component_none _ ⟨0, 1⟩ (by decide) [EcsOp.add 5] 0 true⟩

/-! ## Claim C2: query iteration yields exactly the matching slots -/

theorem queryFindNext_eq (e : Ecs) (m start : Nat) :
    queryFindNext e m start =
      if start < e.slots.length then
        (if slotMatches e m start then start else queryFindNext e m (start + 1))
      else e.slots.length := by
  rw [queryFindNext]
  cases hf : e.slots.length - start with
  | zero =>
    rw [queryFindNextAux]
    rw [if_neg (by omega)]
  | succ f =>
    rw [queryFindNextAux]
    have hs : start < e.slots.length := by omega
    rw [if_pos hs, if_pos hs]
    by_cases hm2 : slotMatches e m start = true
    · rw [if_pos hm2, if_pos hm2]
    · rw [if_neg hm2, if_neg hm2, queryFindNext]
      congr 1
      omega

theorem queryGather_eq_filter_from (e : Ecs) (m : Nat) :
    ∀ n start fuel, n = e.slots.length - start → n < fuel →
      queryGather e ⟨m, queryFindNext e m start⟩ fuel =
        (List.range' start n).filter (fun i => slotMatches e m i) := by
  intro n
  induction n using Nat.strong_induction_on with
  | _ n ih =>
    intro start fuel hn hfuel
    by_cases hstart : start < e.slots.length
    · have hn1 : 1 ≤ n := by omega
      obtain ⟨n2, rfl⟩ : ∃ n2, n = n2 + 1 := ⟨n - 1, by omega⟩
      rw [queryFindNext_eq, if_pos hstart]
      by_cases hmatch : slotMatches e m start = true
      · rw [if_pos hmatch]
        cases fuel with
        | zero => omega
        | succ f =>
          rw [queryGather]
          rw [if_pos (by rw [ecs_query_is_valid]; exact decide_eq_true hstart)]
          rw [List.range'_succ, List.filter_cons, if_pos hmatch]
          congr 1
          have := ih n2 (by omega) (start + 1) f (by omega) (by omega)
          rw [show ecs_query_next e ⟨m, start⟩ =
            ⟨m, queryFindNext e m (start + 1)⟩ from rfl]
          exact this
      · rw [if_neg hmatch]
        rw [List.range'_succ, List.filter_cons, if_neg hmatch]
        exact ih n2 (by omega) (start + 1) fuel (by omega) (by omega)
    · have hn0 : n = 0 := by omega
      subst hn0
      rw [queryFindNext_eq, if_neg hstart]
      cases fuel with
      | zero => omega
      | succ f =>
        rw [queryGather]
        rw [if_neg (by rw [ecs_query_is_valid]; simp)]
        simp

/-- Claim C2: iterating a query created with mask `m` via
`ecs_query_next` / `ecs_query_is_valid` yields exactly the slots that are
live with a mask that is a superset of `m`, in increasing slot order (the
filter of the slot range), and hence yields no entity whose mask misses a
bit of `m`. -/
theorem query_yields_exactly_matching_slots (e : Ecs) (m : Nat) :
    queryGather e (ecs_query_create e m) (e.slots.length + 1) =
      (List.range e.slots.length).filter (fun i => slotMatches e m i) := by
  have h := queryGather_eq_filter_from e m (e.slots.length - 0) 0
    (e.slots.length + 1) rfl (by omega)
  rw [ecs_query_create]
  rw [h, List.range_eq_range', Nat.sub_zero]

/-! ## Claim C5: leak accounting machinery — chain and disjointness lemmas -/

theorem chainBlocks_le {lo hi : Nat} {bs : List Block}
    (h : chainBlocks lo bs hi) : lo ≤ hi := by
  induction bs generalizing lo with
  | nil => exact h
  | cons b rest ih =>
    obtain ⟨h1, h2, h3⟩ := h
    exact Nat.le_trans h1 (Nat.le_trans (Nat.le_add_right _ _) (ih h3))

theorem chainBlocks_mem {lo hi : Nat} {bs : List Block}
    (h : chainBlocks lo bs hi) :
    ∀ b ∈ bs, lo ≤ b.addr ∧ b.addr + b.size ≤ hi ∧ 0 < b.size := by
  induction bs generalizing lo with
  | nil => intro b hb; exact absurd hb (List.not_mem_nil b)
  | cons c rest ih =>
    obtain ⟨h1, h2, h3⟩ := h
    intro b hb
    rcases List.mem_cons.mp hb with hb | hb
    · subst hb
      exact ⟨h1, chainBlocks_le h3, h2⟩
    · obtain ⟨g1, g2, g3⟩ := ih h3 b hb
      exact ⟨by omega, g2, g3⟩

theorem chainBlocks_append_one {lo hi : Nat} {bs : List Block}
    (h : chainBlocks lo bs hi) {b : Block} (hb : hi ≤ b.addr) (hs : 0 < b.size) :
    chainBlocks lo (bs ++ [b]) (b.addr + b.size) := by
  induction bs generalizing lo with
  | nil => exact ⟨Nat.le_trans h hb, hs, Nat.le_refl _⟩
  | cons c rest ih =>
    obtain ⟨h1, h2, h3⟩ := h
    exact ⟨h1, h2, ih h3⟩

theorem freeBlock_addr (a : Nat) (b : Block) : (freeBlock a b).addr = b.addr := by
  rw [freeBlock]; split <;> rfl

theorem freeBlock_size (a : Nat) (b : Block) : (freeBlock a b).size = b.size := by
  rw [freeBlock]; split <;> rfl

theorem chainBlocks_map_freeBlock {lo hi a : Nat} {bs : List Block}
    (h : chainBlocks lo bs hi) :
    chainBlocks lo (bs.map (freeBlock a)) hi := by
  induction bs generalizing lo with
  | nil => exact h
  | cons c rest ih =>
    obtain ⟨h1, h2, h3⟩ := h
    exact ⟨by rw [freeBlock_addr]; exact h1,
      by rw [freeBlock_size]; exact h2,
      by rw [freeBlock_addr, freeBlock_size]; exact ih h3⟩

theorem poolsDisjoint_mono {pools : List Pool} {b b2 : Nat}
    (h : poolsDisjoint pools b) (hb : b ≤ b2) : poolsDisjoint pools b2 := by
  cases pools with
  | nil => trivial
  | cons p ps =>
    obtain ⟨h1, h2, h3⟩ := h
    exact ⟨h1, Nat.le_trans h2 hb, h3⟩

theorem poolsDisjoint_free {pools : List Pool} {bound a : Nat}
    (h : poolsDisjoint pools bound) :
    poolsDisjoint (pools.map (freePool a)) bound := by
  induction pools generalizing bound with
  | nil => trivial
  | cons p ps ih =>
    obtain ⟨⟨hw1, hw2⟩, h2, h3⟩ := h
    exact ⟨⟨chainBlocks_map_freeBlock hw1, hw2⟩, h2, ih h3⟩

theorem poolsDisjoint_blocks_bound {pools : List Pool} {bound : Nat}
    (h : poolsDisjoint pools bound) :
    ∀ p ∈ pools, ∀ b ∈ p.blocks,
      p.base ≤ b.addr ∧ b.addr + b.size ≤ bound ∧ 0 < b.size := by
  induction pools generalizing bound with
  | nil => intro p hp; exact absurd hp (List.not_mem_nil p)
  | cons q ps ih =>
    obtain ⟨⟨hw1, hw2⟩, h2, h3⟩ := h
    intro p hp b hb
    rcases List.mem_cons.mp hp with hp | hp
    · subst hp
      obtain ⟨g1, g2, g3⟩ := chainBlocks_mem hw1 b hb
      exact ⟨g1, by omega, g3⟩
    · obtain ⟨g1, g2, g3⟩ := ih h3 p hp b hb
      have hqb : q.base ≤ bound := by omega
      exact ⟨g1, by omega, g3⟩

theorem chainBlocks_addr_nodup {lo hi : Nat} {bs : List Block}
    (h : chainBlocks lo bs hi) : (bs.map Block.addr).Nodup := by
  induction bs generalizing lo with
  | nil => exact List.nodup_nil
  | cons c rest ih =>
    obtain ⟨h1, h2, h3⟩ := h
    rw [List.map_cons, List.nodup_cons]
    refine ⟨?_, ih h3⟩
    intro hmem
    obtain ⟨b, hb, hba⟩ := List.mem_map.mp hmem
    obtain ⟨g1, g2, g3⟩ := chainBlocks_mem h3 b hb
    omega

theorem poolsDisjoint_addr_nodup {pools : List Pool} {bound : Nat}
    (h : poolsDisjoint pools bound) :
    ((allBlocksP pools).map Block.addr).Nodup := by
  induction pools generalizing bound with
  | nil => exact List.nodup_nil
  | cons p ps ih =>
    obtain ⟨⟨hw1, hw2⟩, h2, h3⟩ := h
    rw [allBlocksP, List.map_cons, List.flatten_cons]
    rw [show ((p.blocks ++ (ps.map Pool.blocks).flatten).map Block.addr) =
      p.blocks.map Block.addr ++ ((ps.map Pool.blocks).flatten).map Block.addr
      from List.map_append _ _ _]
    rw [List.nodup_append]
    refine ⟨chainBlocks_addr_nodup hw1, ih h3, ?_⟩
    intro x hx hx2
    obtain ⟨b, hb, hba⟩ := List.mem_map.mp hx
    obtain ⟨b2, hb2, hb2a⟩ := List.mem_map.mp hx2
    obtain ⟨g1, g2, g3⟩ := chainBlocks_mem hw1 b hb
    obtain ⟨bl, hbl, hb2bl⟩ := List.mem_flatten.mp hb2
    obtain ⟨q, hq, hqbl⟩ := List.mem_map.mp hbl
    obtain ⟨k1, k2, k3⟩ := poolsDisjoint_blocks_bound h3 q hq b2 (by rw [hqbl]; exact hb2bl)
    omega

/-! Effects of memalign and free on the block multiset -/

theorem poolsDisjoint_replace {ps1 : List Pool} {p : Pool} {ps2 : List Pool}
    {bound : Nat}
    (h : poolsDisjoint (ps1 ++ p :: ps2) bound)
    (top2 : Nat) (blocks2 : List Block)
    (hw : PoolWf ⟨p.base, p.capacity, top2, blocks2⟩) :
    poolsDisjoint (ps1 ++ (⟨p.base, p.capacity, top2, blocks2⟩ : Pool) :: ps2) bound := by
  induction ps1 generalizing bound with
  | nil =>
    obtain ⟨hw1, hle, hrest⟩ := h
    exact ⟨hw, hle, hrest⟩
  | cons q qs ih =>
    obtain ⟨hw1, hle, hrest⟩ := h
    exact ⟨hw1, hle, ih hrest⟩

theorem memalign_preserves_disjoint {pools : List Pool} {alignment size addr : Nat}
    {pools2 : List Pool} {bound : Nat}
    (h : tlsf_memalign_pools pools alignment size = some (addr, pools2))
    (ha : 0 < alignment) (hs : 0 < size)
    (hd : poolsDisjoint pools bound) :
    poolsDisjoint pools2 bound := by
  obtain ⟨ps1, p, ps2, e1, e2, e3, e4⟩ := tlsf_memalign_pools_split h
  subst e1
  subst e2
  have hwf : PoolWf p := by
    clear h e4
    induction ps1 generalizing bound with
    | nil => exact hd.1
    | cons q qs ih => exact ih hd.2.2
  have htop : p.top ≤ addr := e3 ▸ le_alignUp p.top alignment ha
  exact poolsDisjoint_replace hd (addr + size) (p.blocks ++ [⟨addr, size, true⟩])
    ⟨chainBlocks_append_one hwf.1 htop hs, e4⟩

theorem blockTriples_pools_memalign {pools : List Pool} {alignment size addr : Nat}
    {pools2 : List Pool}
    (h : tlsf_memalign_pools pools alignment size = some (addr, pools2)) :
    List.Perm ((allBlocksP pools2).map fun b => (b.addr, b.size, b.used))
      (((allBlocksP pools).map fun b => (b.addr, b.size, b.used)) ++
        [(addr, size, true)]) := by
  obtain ⟨ps1, p, ps2, e1, e2, e3, e4⟩ := tlsf_memalign_pools_split h
  subst e1
  subst e2
  rw [allBlocksP, allBlocksP]
  rw [List.map_append, List.map_append, List.map_cons, List.map_cons]
  rw [List.flatten_append, List.flatten_append, List.flatten_cons, List.flatten_cons]
  dsimp only
  rw [List.map_append, List.map_append, List.map_append, List.map_append,
    List.map_append]
  rw [List.map_cons, List.map_nil]
  -- goal: A ++ (PB ++ [b]) ++ B ~ (A ++ (PB ++ B)) ++ [b]  (up to assoc)
  simp only [List.append_assoc]
  apply List.Perm.append_left
  apply List.Perm.append_left
  -- [b] ++ B ~ B ++ [b]
  exact List.perm_append_comm

theorem blockTriples_free (h : Heap) (a : Nat) :
    blockTriples (heap_free h (some a)) = (blockTriples h).map (flipTriple a) := by
  rw [blockTriples, blockTriples, heap_free, allBlocks, allBlocks, tlsf_free]
  dsimp only
  rw [allBlocksP, allBlocksP, List.map_map]
  rw [show (Pool.blocks ∘ freePool a) = fun p => (p.blocks.map (freeBlock a))
    from rfl]
  rw [show (fun p => List.map (freeBlock a) p.blocks) =
    (fun bs => List.map (freeBlock a) bs) ∘ Pool.blocks from rfl]
  rw [← List.map_map (List.map (freeBlock a)) Pool.blocks]
  rw [← List.map_flatten]
  rw [List.map_map, List.map_map]
  apply List.map_congr_left
  intro b hb
  simp only [Function.comp]
  rw [freeBlock, flipTriple]
  by_cases hba : b.addr = a
  · rw [if_pos hba, if_pos hba]
  · rw [if_neg hba, if_neg hba]

/-! Allocation-record bookkeeping lemmas -/

theorem recordEntry_ret_some {ar : AllocRecord} {a : Nat} (h : ar.ret = some a) :
    recordEntry ar = some (a, requestBytes ar.size ar.alignment, ar.live) := by
  rw [recordEntry, h]

theorem filterMap_recordEntry_flip_id {l : List AllocRecord} {a : Nat}
    (hno : ∀ ar ∈ l, ar.ret ≠ some a) :
    (l.filterMap recordEntry).map (flipTriple a) = l.filterMap recordEntry := by
  induction l with
  | nil => rfl
  | cons x xs ih =>
    rw [List.filterMap_cons]
    cases hx : recordEntry x with
    | none => exact ih (fun ar har => hno ar (List.mem_cons_of_mem x har))
    | some e =>
      rw [List.map_cons, ih (fun ar har => hno ar (List.mem_cons_of_mem x har))]
      congr 1
      rw [recordEntry] at hx
      cases hret : x.ret with
      | none => rw [hret] at hx; exact absurd hx (by simp)
      | some b =>
        rw [hret] at hx
        simp only [Option.some.injEq] at hx
        have hba : b ≠ a := fun hba =>
          hno x (List.mem_cons_self x xs) (by rw [hret, hba])
        rw [flipTriple, ← hx]
        rw [if_neg hba]

theorem count_ret_eq_count_fst (l : List AllocRecord) (a : Nat) :
    (l.filter (fun ar => decide (ar.ret = some a))).length =
      List.count a ((l.filterMap recordEntry).map (fun e => e.1)) := by
  induction l with
  | nil => rfl
  | cons x xs ih =>
    rw [List.filter_cons, List.filterMap_cons]
    cases hret : x.ret with
    | none =>
      rw [if_neg (by simp [hret]), recordEntry, hret]
      exact ih
    | some b =>
      rw [recordEntry, hret]
      dsimp only
      rw [List.map_cons, List.count_cons]
      by_cases hba : b = a
      · subst hba
        rw [if_pos (by simp [hret])]
        simp only [List.length_cons]
        rw [ih]
        simp
      · rw [if_neg (by simp [hret, hba])]
        rw [ih]
        simp [hba]

theorem filterMap_recordEntry_set {l : List AllocRecord} {i : Nat}
    {ar : AllocRecord} {a : Nat}
    (hi : l.get? i = some ar) (hret : ar.ret = some a)
    (hcount : (l.filter (fun ar2 => decide (ar2.ret = some a))).length ≤ 1) :
    (l.set i ⟨ar.size, ar.alignment, ar.ret, false⟩).filterMap recordEntry =
      (l.filterMap recordEntry).map (flipTriple a) := by
  induction l generalizing i with
  | nil => exact absurd hi (by simp)
  | cons x xs ih =>
    cases i with
    | zero =>
      simp only [List.get?] at hi
      cases hi
      rw [List.set_cons_zero]
      rw [List.filterMap_cons, List.filterMap_cons]
      have hdead : recordEntry ⟨ar.size, ar.alignment, ar.ret, false⟩ =
          some (a, requestBytes ar.size ar.alignment, false) := by
        rw [recordEntry]
        dsimp only
        rw [hret]
      rw [hdead, recordEntry_ret_some hret]
      dsimp only
      rw [List.map_cons]
      have hxs : ∀ ar2 ∈ xs, ar2.ret ≠ some a := by
        intro ar2 har2 hr2
        have h1 : (0 : Nat) < (List.filter (fun ar2 => decide (ar2.ret = some a)) [ar]).length := by
          simp [hret]
        have h2 : (0 : Nat) < (List.filter (fun ar2 => decide (ar2.ret = some a)) xs).length := by
          have : ar2 ∈ xs.filter (fun ar2 => decide (ar2.ret = some a)) :=
            List.mem_filter.mpr ⟨har2, by simp [hr2]⟩
          exact List.length_pos.mpr (fun he => by rw [he] at this; exact absurd this (List.not_mem_nil ar2))
        rw [List.filter_cons, if_pos (by simp [hret])] at hcount
        simp only [List.length_cons] at hcount
        omega
      rw [filterMap_recordEntry_flip_id hxs]
      congr 1
      rw [flipTriple, if_pos rfl]
    | succ j =>
      simp only [List.get?] at hi
      rw [List.set_cons_succ]
      rw [List.filterMap_cons, List.filterMap_cons]
      have hxret : x.ret ≠ some a := by
        intro hxr
        have har : ar ∈ xs := List.get?_mem hi
        have h2 : (0 : Nat) < (List.filter (fun ar2 => decide (ar2.ret = some a)) xs).length := by
          have : ar ∈ xs.filter (fun ar2 => decide (ar2.ret = some a)) :=
            List.mem_filter.mpr ⟨har, by simp [hret]⟩
          exact List.length_pos.mpr (fun he => by rw [he] at this; exact absurd this (List.not_mem_nil ar))
        rw [List.filter_cons, if_pos (by simp [hxr])] at hcount
        simp only [List.length_cons] at hcount
        omega
      have hcount2 : (xs.filter (fun ar2 => decide (ar2.ret = some a))).length ≤ 1 := by
        rw [List.filter_cons] at hcount
        by_cases hc : (decide (x.ret = some a)) = true
        · simp only [hc, if_pos] at hcount
          simp only [List.length_cons] at hcount
          omega
        · simp only [hc] at hcount
          exact hcount
      rw [ih hi hcount2]
      cases hx : recordEntry x with
      | none => rfl
      | some e =>
        rw [List.map_cons]
        congr 1
        rw [recordEntry] at hx
        cases hret2 : x.ret with
        | none => rw [hret2] at hx; exact absurd hx (by simp)
        | some b =>
          rw [hret2] at hx
          simp only [Option.some.injEq] at hx
          have hba : b ≠ a := fun hba => hxret (by rw [hret2, hba])
          rw [flipTriple, ← hx, if_neg hba]

/-! Invariant preservation along a session -/

theorem TraceInv_alloc (s : RunState) (size alignment : Nat) (ha : 0 < alignment)
    (hinv : TraceInv s) : TraceInv (runOp s (.alloc size alignment)) := by
  obtain ⟨hdisj, hperm⟩ := hinv
  have hs : 0 < heapPaddedSize size alignment + stackCaptureBytes := by
    have h128 : stackCaptureBytes = 128 := rfl
    omega
  rw [runOp]
  simp only [heap_alloc, heap_allocX, tlsf_memalign]
  cases hm : tlsf_memalign_pools s.heap.tlsf.pools alignment
      (heapPaddedSize size alignment + stackCaptureBytes) with
  | some v =>
    obtain ⟨addr, pools2⟩ := v
    dsimp only
    refine ⟨memalign_preserves_disjoint hm ha hs hdisj, ?_⟩
    rw [expectedBlocks]
    dsimp only
    rw [List.filterMap_append]
    exact List.Perm.trans (blockTriples_pools_memalign hm)
      (List.Perm.append hperm (List.Perm.refl _))
  | none =>
    dsimp only
    rw [virtualAlloc]
    by_cases hbud : max s.heap.growIncrement (heapPaddedSize size alignment * 2) +
        sizeof_arena_t + tlsf_pool_overhead ≤ s.os.budget
    · rw [if_pos hbud]
      dsimp only [tlsf_add_pool]
      have hd2 : poolsDisjoint
          (Pool.mk (s.os.nextAddr + sizeof_arena_t)
            (max s.heap.growIncrement (heapPaddedSize size alignment * 2) + sizeof_arena_t)
            (s.os.nextAddr + sizeof_arena_t) [] :: s.heap.tlsf.pools)
          (s.os.nextAddr +
            (max s.heap.growIncrement (heapPaddedSize size alignment * 2) + sizeof_arena_t +
              tlsf_pool_overhead)) := by
        refine ⟨⟨Nat.le_refl _, Nat.le_add_right _ _⟩, ?_, ?_⟩
        · dsimp only
          have h16 : sizeof_arena_t = 16 := rfl
          have h32 : tlsf_pool_overhead = 32 := rfl
          omega
        · exact poolsDisjoint_mono hdisj (Nat.le_add_right _ _)
      have hblocks : allBlocksP (Pool.mk (s.os.nextAddr + sizeof_arena_t)
          (max s.heap.growIncrement (heapPaddedSize size alignment * 2) + sizeof_arena_t)
          (s.os.nextAddr + sizeof_arena_t) [] :: s.heap.tlsf.pools) =
          allBlocksP s.heap.tlsf.pools := by
        rw [allBlocksP, allBlocksP, List.map_cons, List.flatten_cons]
        rfl
      cases hm2 : tlsf_memalign_pools
          (Pool.mk (s.os.nextAddr + sizeof_arena_t)
            (max s.heap.growIncrement (heapPaddedSize size alignment * 2) + sizeof_arena_t)
            (s.os.nextAddr + sizeof_arena_t) [] :: s.heap.tlsf.pools) alignment
          (heapPaddedSize size alignment + stackCaptureBytes) with
      | some v =>
        obtain ⟨addr, pools2⟩ := v
        dsimp only
        refine ⟨memalign_preserves_disjoint hm2 ha hs hd2, ?_⟩
        rw [expectedBlocks]
        dsimp only
        rw [List.filterMap_append]
        refine List.Perm.trans (blockTriples_pools_memalign hm2) ?_
        rw [hblocks]
        exact List.Perm.append hperm (List.Perm.refl _)
      | none =>
        dsimp only
        refine ⟨hd2, ?_⟩
        rw [expectedBlocks]
        dsimp only
        rw [List.filterMap_append]
        rw [show List.filterMap recordEntry
            [(⟨size, alignment, none, Option.isSome none⟩ : AllocRecord)] = [] from rfl]
        rw [List.append_nil]
        rw [show blockTriples ⟨s.heap.growIncrement,
            Arena.mk s.os.nextAddr (max s.heap.growIncrement
              (heapPaddedSize size alignment * 2) + sizeof_arena_t) :: s.heap.arenas,
            ⟨Pool.mk (s.os.nextAddr + sizeof_arena_t)
              (max s.heap.growIncrement (heapPaddedSize size alignment * 2) + sizeof_arena_t)
              (s.os.nextAddr + sizeof_arena_t) [] :: s.heap.tlsf.pools⟩,
            s.heap.lockDepth + 1 - 1⟩ = blockTriples s.heap from by
          rw [blockTriples, blockTriples, allBlocks, allBlocks]
          dsimp only
          rw [hblocks]]
        exact hperm
    · rw [if_neg hbud]
      dsimp only
      refine ⟨hdisj, ?_⟩
      rw [expectedBlocks]
      dsimp only
      rw [List.filterMap_append]
      rw [show List.filterMap recordEntry
          [(⟨size, alignment, none, Option.isSome none⟩ : AllocRecord)] = [] from rfl]
      rw [List.append_nil]
      exact hperm

theorem TraceInv_free (s : RunState) (i : Nat) (hinv : TraceInv s) :
    TraceInv (runOp s (.free i)) := by
  obtain ⟨hdisj, hperm⟩ := hinv
  rw [runOp]
  cases hget : s.allocs.get? i with
  | none => exact ⟨hdisj, hperm⟩
  | some ar =>
    dsimp only
    cases hret : ar.ret with
    | none => exact ⟨hdisj, hperm⟩
    | some a =>
      dsimp only
      constructor
      · show poolsDisjoint (s.heap.tlsf.pools.map (freePool a)) s.os.nextAddr
        exact poolsDisjoint_free hdisj
      · rw [blockTriples_free]
        have hfst : (blockTriples s.heap).map (fun e => e.1) =
            (allBlocks s.heap).map Block.addr := by
          rw [blockTriples, List.map_map]
          rfl
        have hnodupExp : ((expectedBlocks s).map (fun e => e.1)).Nodup := by
          refine (List.Perm.nodup_iff (List.Perm.map _ hperm)).mp ?_
          rw [hfst]
          exact poolsDisjoint_addr_nodup hdisj
        have hcount : (s.allocs.filter (fun ar2 => decide (ar2.ret = some a))).length ≤ 1 := by
          rw [count_ret_eq_count_fst]
          exact List.nodup_iff_count_le_one.mp hnodupExp a
        have hset := filterMap_recordEntry_set hget hret hcount
        rw [hret] at hset
        show List.Perm (List.map (flipTriple a) (blockTriples s.heap))
          ((s.allocs.set i ⟨ar.size, ar.alignment, some a, false⟩).filterMap recordEntry)
        rw [hset]
        exact List.Perm.map _ hperm

theorem TraceInv_run (s : RunState) (t : List HeapOp)
    (hwf : wfTrace s t = true) (hinv : TraceInv s) : TraceInv (runTrace s t) := by
  induction t generalizing s with
  | nil => exact hinv
  | cons op rest ih =>
    cases op with
    | alloc size alignment =>
      rw [wfTrace] at hwf
      obtain ⟨h1, h2⟩ := Bool.and_eq_true_iff.mp hwf
      rw [runTrace, List.foldl_cons]
      exact ih (runOp s (.alloc size alignment)) h2
        (TraceInv_alloc s size alignment (of_decide_eq_true h1) hinv)
    | free i =>
      rw [wfTrace] at hwf
      rw [runTrace, List.foldl_cons]
      cases hget : s.allocs.get? i with
      | none => rw [hget] at hwf; exact absurd hwf (by simp)
      | some ar =>
        rw [hget] at hwf
        dsimp only at hwf
        obtain ⟨h1, h2⟩ := Bool.and_eq_true_iff.mp hwf
        exact ih (runOp s (.free i)) h2 (TraceInv_free s i hinv)

theorem walker_blocks (bs : List Block) :
    (bs.filter (fun b => b.used)).map (fun b => b.size) =
      (bs.map (fun b => (b.addr, b.size, b.used))).filterMap entryLeak := by
  induction bs with
  | nil => rfl
  | cons b rest ih =>
    rw [List.filter_cons, List.map_cons, List.filterMap_cons]
    cases hu : b.used
    · rw [if_neg (by simp [hu])]
      rw [show entryLeak (b.addr, b.size, false) = none from rfl]
      exact ih
    · rw [if_pos (by simp [hu])]
      rw [show entryLeak (b.addr, b.size, true) = some b.size from rfl]
      rw [List.map_cons, ih]

theorem heap_destroy_leaks_eq (h : Heap) :
    heap_destroy_leaks h = (blockTriples h).filterMap entryLeak := by
  rw [heap_destroy_leaks, blockTriples, allBlocks, allBlocksP]
  induction h.tlsf.pools with
  | nil => rfl
  | cons p ps ih =>
    rw [List.map_cons, List.flatten_cons, List.map_cons, List.flatten_cons]
    rw [List.map_append, List.filterMap_append]
    rw [← ih]
    congr 1
    rw [memory_leak_walker]
    exact walker_blocks p.blocks

theorem liveRequestSizes_eq (s : RunState) :
    liveRequestSizes s = (expectedBlocks s).filterMap entryLeak := by
  rw [liveRequestSizes, expectedBlocks]
  induction s.allocs with
  | nil => rfl
  | cons ar rest ih =>
    rw [List.filterMap_cons, List.filterMap_cons]
    cases hret : ar.ret with
    | none =>
      rw [show recordEntry ar = none from by rw [recordEntry, hret]]
      dsimp only
      exact ih
    | some a =>
      rw [recordEntry_ret_some hret]
      rw [List.filterMap_cons]
      cases hl : ar.live
      · dsimp only
        exact ih
      · dsimp only
        rw [ih]
        rfl

/-- Claim C5 as amended: for every well-formed trace of heap_alloc and
heap_free calls (positive alignments, no double-free, no foreign-free),
heap_destroy reports no leak for freed blocks and exactly one leak entry
per block still live — but the size each entry records is the internal
block size handed to the wrapped allocator (the padded size plus the 128
call-stack capture bytes), not the size originally requested. -/
theorem heap_destroy_leaks_match_live_blocks
    (os : OS) (growIncrement : Nat) (t : List HeapOp)
    (hwf : wfTrace (initState os growIncrement) t = true) :
    List.Perm (heap_destroy_leaks (runTrace (initState os growIncrement) t).heap)
      (liveRequestSizes (runTrace (initState os growIncrement) t)) := by
  have hinv0 : TraceInv (initState os growIncrement) := by
    constructor
    · trivial
    · exact List.Perm.refl []
  obtain ⟨hdisj, hperm⟩ := TraceInv_run (initState os growIncrement) t hwf hinv0
  rw [heap_destroy_leaks_eq, liveRequestSizes_eq]
  exact List.Perm.filterMap entryLeak hperm

/-- Counterexample to claim C5 as stated: a single live 1-byte allocation
is reported at destroy as a leak of 130 bytes (padded size 2 plus the 128
capture bytes), not of the 1 byte originally requested. -/
theorem leak_reports_block_size_cex :
    heap_destroy_leaks (runTrace (initState ⟨0, 1000000⟩ 4096) [HeapOp.alloc 1 1]).heap =
        [130] ∧
      (130 : Nat) ≠ 1 := by
  constructor
  · rfl
  · decide

/-- Witness for the amended claim C5: a trace of two allocations and one
free leaks exactly the one still-live block, with its internal size 136. -/
theorem heap_destroy_leaks_witness :
    wfTrace (initState ⟨0, 1000000⟩ 4096)
        [HeapOp.alloc 1 1, HeapOp.alloc 4 4, HeapOp.free 0] = true ∧
      List.Perm
        (heap_destroy_leaks (runTrace (initState ⟨0, 1000000⟩ 4096)
          [HeapOp.alloc 1 1, HeapOp.alloc 4 4, HeapOp.free 0]).heap)
        (liveRequestSizes (runTrace (initState ⟨0, 1000000⟩ 4096)
          [HeapOp.alloc 1 1, HeapOp.alloc 4 4, HeapOp.free 0])) :=
  ⟨by decide,
    heap_destroy_leaks_match_live_blocks ⟨0, 1000000⟩ 4096
      [HeapOp.alloc 1 1, HeapOp.alloc 4 4, HeapOp.free 0] (by decide)⟩

/-! HeapInv is established at creation and preserved by every call, so the
hypothesis of the containment theorem holds for every reachable heap. -/

theorem heap_create_heapInv (g : Nat) : HeapInv (heap_create g) :=
  fun p hp => absurd hp (List.not_mem_nil p)

theorem memalign_preserves_shapes_corr {pools : List Pool}
    {alignment size addr : Nat} {pools2 : List Pool} {arenas : List Arena}
    (h : tlsf_memalign_pools pools alignment size = some (addr, pools2))
    (ha : 0 < alignment)
    (hinv : ∀ p ∈ pools, PoolShape p ∧
      ∃ a ∈ arenas, p.base = a.base + sizeof_arena_t ∧ p.capacity = a.size) :
    ∀ p ∈ pools2, PoolShape p ∧
      ∃ a ∈ arenas, p.base = a.base + sizeof_arena_t ∧ p.capacity = a.size := by
  obtain ⟨ps1, p, ps2, e1, e2, e3, e4⟩ := tlsf_memalign_pools_split h
  subst e1
  subst e2
  intro q hq
  rcases List.mem_append.mp hq with hq | hq
  · exact hinv q (List.mem_append_left _ hq)
  · rcases List.mem_cons.mp hq with hq | hq
    · subst hq
      obtain ⟨⟨hs1, hs2⟩, hcorr⟩ :=
        hinv p (List.mem_append_right _ (List.mem_cons_self _ _))
      have htop : p.top ≤ addr := e3 ▸ le_alignUp p.top alignment ha
      exact ⟨⟨by dsimp only; omega, by dsimp only; omega⟩, hcorr⟩
    · exact hinv q (List.mem_append_right _ (List.mem_cons_of_mem _ hq))

theorem heap_alloc_preserves_heapInv (os : OS) (h : Heap) (size alignment : Nat)
    (ha : 0 < alignment) (hinv : HeapInv h) :
    HeapInv (heap_alloc os h size alignment).heap := by
  simp only [heap_alloc, heap_allocX, tlsf_memalign]
  cases hm : tlsf_memalign_pools h.tlsf.pools alignment
      (heapPaddedSize size alignment + stackCaptureBytes) with
  | some v =>
    obtain ⟨addr, pools2⟩ := v
    dsimp only
    intro p hp
    exact memalign_preserves_shapes_corr hm ha hinv p hp
  | none =>
    dsimp only
    cases hv : virtualAlloc os
        (max h.growIncrement (heapPaddedSize size alignment * 2) + sizeof_arena_t +
          tlsf_pool_overhead) with
    | none => exact hinv
    | some w =>
      obtain ⟨base, os2⟩ := w
      dsimp only [tlsf_add_pool]
      have hinv2 : ∀ q ∈ (Pool.mk (base + sizeof_arena_t)
          (max h.growIncrement (heapPaddedSize size alignment * 2) + sizeof_arena_t)
          (base + sizeof_arena_t) [] :: h.tlsf.pools), PoolShape q ∧
          ∃ a ∈ (Arena.mk base
              (max h.growIncrement (heapPaddedSize size alignment * 2) + sizeof_arena_t)
            :: h.arenas),
            q.base = a.base + sizeof_arena_t ∧ q.capacity = a.size := by
        intro q hq
        rcases List.mem_cons.mp hq with hq | hq
        · subst hq
          exact ⟨⟨Nat.le_refl _, Nat.le_add_right _ _⟩,
            _, List.mem_cons_self _ _, rfl, rfl⟩
        · obtain ⟨hs, a, haa, e1, e2⟩ := hinv q hq
          exact ⟨hs, a, List.mem_cons_of_mem _ haa, e1, e2⟩
      cases hm2 : tlsf_memalign_pools
          (Pool.mk (base + sizeof_arena_t)
            (max h.growIncrement (heapPaddedSize size alignment * 2) + sizeof_arena_t)
            (base + sizeof_arena_t) [] :: h.tlsf.pools) alignment
          (heapPaddedSize size alignment + stackCaptureBytes) with
      | some v =>
        obtain ⟨addr, pools2⟩ := v
        dsimp only
        intro p hp
        exact memalign_preserves_shapes_corr hm2 ha hinv2 p hp
      | none =>
        dsimp only
        intro p hp
        exact hinv2 p hp

theorem heap_free_preserves_heapInv (h : Heap) (address : Option Nat)
    (hinv : HeapInv h) : HeapInv (heap_free h address) := by
  cases address with
  | none => exact hinv
  | some a =>
    intro p hp
    rw [heap_free] at hp
    dsimp only [tlsf_free] at hp
    obtain ⟨q, hq, hpq⟩ := List.mem_map.mp hp
    obtain ⟨hs, ha2, haa, e1, e2⟩ := hinv q hq
    subst hpq
    exact ⟨hs, ha2, haa, e1, e2⟩

end Resolve
